import Mathlib

/-!
Verification of the `gitdiff` utility (`src/main.py`) against its
specification.  Python strings are modelled as lists of characters,
Python functions as Lean functions over that model, and the external
`git` executable as an oracle mapping an argument vector to an outcome.
-/

namespace GitDiff

/-- Python strings are modelled as lists of characters. -/
abbrev Str := List Char

/-- Converts a Lean string literal into the model type. -/
def str (s : String) : Str := s.data

/-- Characters treated as whitespace by Python's `str.strip` and
`str.split(None)` (ASCII subset; the script's inputs contain only these). -/
def isPySpace (c : Char) : Bool :=
  c == ' ' || c == '\t' || c == '\n' || c == '\x0d' || c == '\x0b' || c == '\x0c'

/-- Python `s.strip()`: remove leading and trailing whitespace. -/
def pyStrip (s : Str) : Str :=
  ((s.dropWhile isPySpace).reverse.dropWhile isPySpace).reverse

/-- Characters recognised as line boundaries by Python `str.splitlines`. -/
def isLineBreakChar (c : Char) : Bool :=
  c == '\n' || c == '\x0d' || c == '\x0b' || c == '\x0c' ||
  c == '\x1c' || c == '\x1d' || c == '\x1e' || c == '\x85' ||
  c == '\u2028' || c == '\u2029'

/-- Worker for `splitlines`: `acc` holds the current line reversed, and
`afterCR` records that the previous character was `'\x0d'`, so that a
`"\x0d\n"` pair counts as a single line boundary.  A trailing boundary
does not contribute a final empty line. -/
def splitlinesAux : Str → Str → Bool → List Str
  | [], acc, _ => if acc = [] then [] else [acc.reverse]
  | c :: rest, acc, afterCR =>
    if afterCR = true ∧ c = '\n' then splitlinesAux rest acc false
    else if c = '\x0d' then acc.reverse :: splitlinesAux rest [] true
    else if isLineBreakChar c then acc.reverse :: splitlinesAux rest [] false
    else splitlinesAux rest (c :: acc) false

/-- Python `s.splitlines()`. -/
def splitlines (s : Str) : List Str := splitlinesAux s [] false

/-- Python `"\n".join(lines)`. -/
def joinNL : List Str → Str
  | [] => []
  | [l] => l
  | l :: ls => l ++ '\n' :: joinNL ls

/-- Boolean test that `pat` is an initial segment of `s`
(Python `s.startswith(pat)`). -/
def strStartsWith : Str → Str → Bool
  | [], _ => true
  | _ :: _, [] => false
  | p :: ps, c :: cs => if p = c then strStartsWith ps cs else false

/-- Python `pat in s` substring test. -/
def containsSub (pat : Str) : Str → Bool
  | [] => pat.isEmpty
  | c :: cs => strStartsWith pat (c :: cs) || containsSub pat cs

/-- The file-header marker `"diff --git "` of `_split_diff_into_hunks`. -/
def fileHeaderMarker : Str := str "diff --git "

/-- The hunk-header marker `"@@ "` of `_split_diff_into_hunks`. -/
def hunkMarker : Str := str "@@ "

/-- Loop body of `_split_diff_into_hunks` (`src/main.py` lines 141-160):
`blocks` is `hunk_blocks`, `current` is `current_block_lines`; the
`in_hunk_section` flag of the source is never read and is omitted. -/
def splitHunksLoop : List Str → List Str → List Str → List Str
  | [], blocks, current =>
    if current = [] then blocks else blocks ++ [joinNL current]
  | line :: rest, blocks, current =>
    if strStartsWith fileHeaderMarker line then
      splitHunksLoop rest
        (if current = [] then blocks else blocks ++ [joinNL current]) [line]
    else if strStartsWith hunkMarker line then
      splitHunksLoop rest
        (if current = [] then blocks else blocks ++ [joinNL current]) [line]
    else
      splitHunksLoop rest blocks (current ++ [line])

/-- Embedding of `_split_diff_into_hunks` (`src/main.py` lines 125-162). -/
def split_diff_into_hunks (diff_content : Str) : List Str :=
  if diff_content = [] then []
  else splitHunksLoop (splitlines diff_content) [] []

/-- Test for a line starting a new file section, `line.startswith("diff --git ")`. -/
def isFileHeaderLine (l : Str) : Bool := strStartsWith fileHeaderMarker l

/-- Test for a line starting a block, i.e. either marker of the splitter. -/
def isMarkerLine (l : Str) : Bool :=
  strStartsWith fileHeaderMarker l || strStartsWith hunkMarker l

/-- The rename/copy separator `" -> "` of the status parser. -/
def arrowSep : Str := str " -> "

/-- Python `file_path_raw.split(" -> ")` worker; `acc` holds the current
piece reversed.  When the separator occurs at the front, its four
characters are consumed at once (the fallback arm of the inner match is
unreachable because the four-character match succeeded). -/
def splitArrowAux : Str → Str → List Str
  | [], acc => [acc.reverse]
  | c :: cs, acc =>
    if strStartsWith arrowSep (c :: cs) then
      match cs with
      | _ :: _ :: _ :: cs3 => acc.reverse :: splitArrowAux cs3 []
      | _ => [acc.reverse]
    else splitArrowAux cs (c :: acc)

/-- Python `s.split(" -> ")`. -/
def splitArrow (s : Str) : List Str := splitArrowAux s []

/-- Joins pieces back with the `" -> "` separator (inverse of `splitArrow`). -/
def joinArrow : List Str → Str
  | [] => []
  | [l] => l
  | l :: ls => l ++ arrowSep ++ joinArrow ls

/-- Modelled from the spec's words (§4.2): "the path is taken as the
substring after the separator" — everything after the first occurrence of
`" -> "`, or `none` when the separator does not occur.  Used only to
compare the code's `split(" -> ")[1]` against the spec's description. -/
def specAfterArrow : Str → Option Str
  | [] => none
  | c :: cs =>
    if strStartsWith arrowSep (c :: cs) then some (cs.drop 3)
    else specAfterArrow cs

/-- One `(status-code, path)` pair of the status report (§3 ChangeRecord). -/
structure ChangeRecord where
  statusCode : Str
  path : Str
deriving DecidableEq

/-- Python `line.split(None, 1)`: drop leading whitespace, take the first
whitespace-run-delimited token, then the remainder with the separating
whitespace run removed; a whitespace-only remainder yields no second
element. -/
def splitNone1 (s : Str) : List Str :=
  if s.dropWhile isPySpace = [] then []
  else if ((s.dropWhile isPySpace).dropWhile
      (fun c => !(isPySpace c))).dropWhile isPySpace = [] then
    [(s.dropWhile isPySpace).takeWhile (fun c => !(isPySpace c))]
  else
    [(s.dropWhile isPySpace).takeWhile (fun c => !(isPySpace c)),
     ((s.dropWhile isPySpace).dropWhile (fun c => !(isPySpace c))).dropWhile isPySpace]

/-- Status line handling of `run_diff_logic` (`src/main.py` lines 309-325):
lines with fewer than two whitespace-separated parts are skipped; a
rename/copy line containing `" -> "` resolves to `split(" -> ")[1]`
trimmed, any other line to the trimmed remainder. -/
def parseStatusLine (line : Str) : Option ChangeRecord :=
  match splitNone1 line with
  | status_code :: file_path_raw :: _ =>
    let file_path :=
      if containsSub arrowSep file_path_raw = true ∧
          (strStartsWith (str "R") status_code = true ∨
           strStartsWith (str "C") status_code = true) then
        pyStrip ((splitArrow file_path_raw).getD 1 [])
      else pyStrip file_path_raw
    some { statusCode := status_code, path := file_path }
  | _ => none

/-- The status-report parsing pass of `run_diff_logic`
(`for line in stdout_status.strip().splitlines(): ...`). -/
def parseStatus (stdout_status : Str) : List ChangeRecord :=
  (splitlines (pyStrip stdout_status)).filterMap parseStatusLine

/-- Result of spawning the external `git` process, as observed by
`_execute_git_command`: a completed process with captured streams and
exit code, a missing executable (`FileNotFoundError`), or any other
unexpected execution fault (`except Exception`). -/
inductive ExecOutcome where
  | completed (stdout : Str) (stderr : Str) (returncode : Int)
  | fileNotFound
  | execError
deriving DecidableEq

/-- Embedding of `_execute_git_command` (`src/main.py` lines 38-91).
The subprocess result is passed in as `outcome`; logging is I/O only and
is omitted.  Python evaluates `command_parts[0]` before the `try` block,
so the function is meaningful only for non-empty argument vectors; the
empty vector (an `IndexError` in Python) is given the harmless default
head `[]`. -/
def execute_git_command (command_parts : List Str) (outcome : ExecOutcome) :
    Str × Bool :=
  match outcome with
  | .completed stdout _stderr returncode =>
    if command_parts.headD [] = str "diff" ∧ returncode = 1 then
      (pyStrip stdout, true)
    else if returncode ≠ 0 then (pyStrip stdout, false)
    else (pyStrip stdout, true)
  | .fileNotFound => ([], false)
  | .execError => ([], false)

/-- The external `git` tool as a black-box oracle from argument vector to
outcome, combined with the runner. -/
def runGit (git : List Str → ExecOutcome) (command_parts : List Str) :
    Str × Bool :=
  execute_git_command command_parts (git command_parts)

/-- Argument vector `["diff", "HEAD", "--", file_path]`. -/
def gitDiffHeadCmd (file_path : Str) : List Str :=
  [str "diff", str "HEAD", str "--", file_path]

/-- Argument vector `["diff", "--no-index", "/dev/null", file_path]`. -/
def gitNoIndexCmd (file_path : Str) : List Str :=
  [str "diff", str "--no-index", str "/dev/null", file_path]

/-- Argument vector `["status", "--porcelain"]`. -/
def gitStatusCmd : List Str := [str "status", str "--porcelain"]

/-- The diff retrieval of `_is_binary_file` (`src/main.py` lines 101-111):
a diff against `HEAD`, retried with `--no-index` against `/dev/null` when
the first attempt failed with the unknown-revision message. -/
def retrievedDiff (git : List Str → ExecOutcome) (file_path : Str) :
    Str × Bool :=
  let r1 := runGit git (gitDiffHeadCmd file_path)
  if r1.2 = false ∧
      containsSub (str "unknown revision or path not in the working tree") r1.1 = true then
    runGit git (gitNoIndexCmd file_path)
  else r1

/-- Embedding of `_is_binary_file` (`src/main.py` lines 94-122). -/
def is_binary_file (git : List Str → ExecOutcome) (file_path : Str) : Bool :=
  let r := retrievedDiff git file_path
  if r.2 = true ∧ containsSub (str "Binary files ") r.1 = true ∧
      containsSub (str " differ") r.1 = true then
    true
  else false

/-- Python `os.path.basename`: the part after the last `'/'`. -/
def basename (p : Str) : Str :=
  p.foldl (fun acc c => if c = '/' then [] else acc ++ [c]) []

/-- The suffix of `s` starting at its last `'.'`, if any. -/
def lastDotSuffix : Str → Option Str
  | [] => none
  | c :: t =>
    match lastDotSuffix t with
    | some e => some e
    | none => if c = '.' then some (c :: t) else none

/-- Extension component of Python `os.path.splitext`: the suffix of the
final path component starting at its last dot, where the leading dots of
the component never start an extension. -/
def splitextExt (p : Str) : Str :=
  match lastDotSuffix ((basename p).dropWhile (fun c => c = '.')) with
  | some e => e
  | none => []

/-- Python `s.lower()` (ASCII; extensions in this tool are ASCII). -/
def strLower (s : Str) : Str := s.map Char.toLower

/-- Extension filtering as performed by `run_diff_logic` lines 343-349 and
`check_and_handle_untracked_change` lines 203-210: active only when the
list is truthy (present and non-empty), and rejecting a path whose
lower-cased extension is not a member. -/
def extFilterRejects (file_extensions : Option (List Str)) (path : Str) : Bool :=
  match file_extensions with
  | none => false
  | some exts =>
    if exts = [] then false
    else if strLower (splitextExt path) ∈ exts then false else true

/-- Filename filtering of `run_diff_logic` lines 340-341: active only when
the filter is truthy (present and non-empty), and rejecting a path whose
final component differs from it. -/
def nameFilterRejects (filter_filename : Option Str) (path : Str) : Bool :=
  match filter_filename with
  | none => false
  | some f =>
    if f = [] then false
    else if f = basename path then false else true

/-- One value of the `all_file_diffs` dictionary (§3 DiffEntry; the key is
the path). -/
structure DiffEntry where
  status : Str
  diff : Str
deriving DecidableEq

/-- The `all_file_diffs` dictionary, as an insertion-ordered association
list with unique keys (the model of a Python `dict`). -/
abbrev DiffMap := List (Str × DiffEntry)

/-- Python `d[k] = v`: overwrite in place when the key exists, else append. -/
def mapInsert (m : DiffMap) (k : Str) (v : DiffEntry) : DiffMap :=
  match m with
  | [] => [(k, v)]
  | (k', v') :: t => if k' = k then (k, v) :: t else (k', v') :: mapInsert t k v

/-- The keys of the dictionary, in insertion order. -/
def mapKeys (m : DiffMap) : List Str := m.map Prod.fst

/-- Python `d[k]` for a key known to be present (the script only reads
keys it has inserted); absent keys give a dummy entry. -/
def mapGet (m : DiffMap) (k : Str) : DiffEntry :=
  match m with
  | [] => ⟨[], []⟩
  | (k', v) :: t => if k' = k then v else mapGet t k

/-- The run-scoped configuration flags (`_verbose`, `_ignore_binaries`,
`_output_json`); only `ignore_binaries` influences the collected data,
the other two gate logging and printing only. -/
structure Config where
  verbose : Bool
  ignore_binaries : Bool
  output_json : Bool

/-- The external world of one run: the two repository checks of
`run_diff_logic`, the `git` oracle, and the file-system oracles
(`os.path.isdir` and the files produced by `os.walk`, the latter already
expressed relative to the repository as in lines 199-201). -/
structure Env where
  repoExists : Bool
  hasGitDir : Bool
  git : List Str → ExecOutcome
  isDir : Str → Bool
  walk : Str → List Str

/-- Body of the `for file in files` loop over an untracked directory
(`src/main.py` lines 198-236): extension filter, binary filter, then a
`--no-index` diff recorded when it succeeds with non-empty trimmed text.
The `dir_had_content_diff` flag only gates logging and is omitted. -/
def untrackedSubStep (env : Env) (cfg : Config)
    (file_extensions : Option (List Str)) (acc : DiffMap) (sub : Str) : DiffMap :=
  if extFilterRejects file_extensions sub = true then acc
  else if cfg.ignore_binaries = true ∧ is_binary_file env.git sub = true then acc
  else
    let r := runGit env.git (gitNoIndexCmd sub)
    if r.2 = true ∧ pyStrip r.1 ≠ [] then
      mapInsert acc sub ⟨ str "Untracked", pyStrip r.1⟩
    else acc

/-- Embedding of `check_and_handle_untracked_change`
(`src/main.py` lines 188-265). -/
def check_and_handle_untracked_change (env : Env) (cfg : Config)
    (status : Str) (fpath : Str) (file_extensions : Option (List Str))
    (all_file_diffs : DiffMap) : DiffMap :=
  if status = str "??" then
    if env.isDir fpath = true then
      (env.walk fpath).foldl (untrackedSubStep env cfg file_extensions) all_file_diffs
    else
      let r := runGit env.git (gitNoIndexCmd fpath)
      if r.2 = true ∧ pyStrip r.1 ≠ [] then
        mapInsert all_file_diffs fpath ⟨ str "Untracked", pyStrip r.1⟩
      else all_file_diffs
  else
    let r := runGit env.git (gitDiffHeadCmd fpath)
    if r.2 = true ∧ pyStrip r.1 ≠ [] then
      mapInsert all_file_diffs fpath ⟨status, pyStrip r.1⟩
    else all_file_diffs

/-- Body of the `for file_info in changed_files_info` loop of
`run_diff_logic` (lines 336-358): name, extension and binary filters,
then the untracked/tracked dispatch. -/
def runStep (env : Env) (cfg : Config) (file_extensions : Option (List Str))
    (filter_filename : Option Str) (acc : DiffMap) (rec : ChangeRecord) : DiffMap :=
  if nameFilterRejects filter_filename rec.path = true then acc
  else if extFilterRejects file_extensions rec.path = true then acc
  else if cfg.ignore_binaries = true ∧ is_binary_file env.git rec.path = true then acc
  else check_and_handle_untracked_change env cfg rec.statusCode rec.path
    file_extensions acc

/-- Embedding of `run_diff_logic` (`src/main.py` lines 268-388), returning
the exit code together with the collected `all_file_diffs` dictionary
(rendering is I/O and is specified separately via
`create_json_output_data`). -/
def run_diff_logic (env : Env) (cfg : Config)
    (file_extensions : Option (List Str)) (filter_filename : Option Str) :
    Int × DiffMap :=
  if env.repoExists = false then (1, [])
  else if env.hasGitDir = false then (1, [])
  else
    let rs := runGit env.git gitStatusCmd
    if rs.2 = false then (1, [])
    else
      let changed := parseStatus rs.1
      if changed = [] then (0, [])
      else (0, changed.foldl (runStep env cfg file_extensions filter_filename) [])

/-- Lexicographic (code-point) order on strings, Python `sorted` order. -/
def lexLe : Str → Str → Bool
  | [], _ => true
  | _ :: _, [] => false
  | a :: as, b :: bs => if a = b then lexLe as bs else decide (a < b)

/-- Python `sorted(all_file_diffs.keys())`: the keys in ascending
lexicographic order (insertion sort; any correct sort agrees on lists of
strings because equal keys are identical). -/
def sortedKeys (m : DiffMap) : List Str :=
  List.insertionSort (fun a b => lexLe a b = true) (mapKeys m)

/-- One element of the JSON output array (`src/main.py` lines 175-184). -/
structure JsonFileEntry where
  filename : Str
  ext : Str
  all_diffs_as_text : Str
  diff_blocks : List Str
deriving DecidableEq

/-- Embedding of `create_json_output_data` (`src/main.py` lines 165-185). -/
def create_json_output_data (all_file_diffs : DiffMap) : List JsonFileEntry :=
  (sortedKeys all_file_diffs).map fun fpath =>
    let diff_info := mapGet all_file_diffs fpath
    { filename := fpath
      ext := splitextExt fpath
      all_diffs_as_text := diff_info.diff
      diff_blocks := split_diff_into_hunks diff_info.diff }

/-- Condition under which the untracked-directory loop records a sub-file
(used to state the collector properties). -/
def subInsertCond (env : Env) (cfg : Config)
    (file_extensions : Option (List Str)) (sub : Str) : Bool :=
  if extFilterRejects file_extensions sub = true then false
  else if cfg.ignore_binaries = true ∧ is_binary_file env.git sub = true then false
  else
    decide ((runGit env.git (gitNoIndexCmd sub)).2 = true ∧
      pyStrip (runGit env.git (gitNoIndexCmd sub)).1 ≠ [])

/-- Head of an accumulator starts a new file section (loop invariant). -/
def headIsFileHeader : List Str → Bool
  | [] => false
  | l :: _ => isFileHeaderLine l

/-- Head of an accumulator is a marker line (loop invariant). -/
def headIsMarker : List Str → Bool
  | [] => false
  | l :: _ => isMarkerLine l

/-- Configuration with all flags off (test fixture). -/
def cfgPlain : Config := ⟨false, false, false⟩

/-- Git oracle of a repository whose status reports one untracked
directory `main.py`, and whose diff commands all report one line of
differences (test fixture). -/
def gitExUntrackedDir : List Str → ExecOutcome := fun parts =>
  if parts = gitStatusCmd then .completed (str "?? main.py") [] 0
  else .completed (str "+x") [] 1

/-- Environment in which `main.py` is an untracked directory containing
the single file `main.py/other.txt` (test fixture). -/
def envExUntrackedDir : Env :=
  { repoExists := true, hasGitDir := true, git := gitExUntrackedDir,
    isDir := fun p => p = str "main.py", walk := fun _ => [str "main.py/other.txt"] }

/-- Git oracle of a repository with one modified tracked file `main.py`
(test fixture). -/
def gitExTracked : List Str → ExecOutcome := fun parts =>
  if parts = gitStatusCmd then .completed (str "M  main.py") [] 0
  else .completed (str "+y") [] 1

/-- Environment with one modified tracked file and no directories
(test fixture). -/
def envExTracked : Env :=
  { repoExists := true, hasGitDir := true, git := gitExTracked,
    isDir := fun _ => false, walk := fun _ => [] }

/-- Git oracle whose diff output is a binary-file marker line
(test fixture). -/
def gitExBinary : List Str → ExecOutcome :=
  fun _ => .completed (str "Binary files a/x and b/x differ") [] 1

/-- Two-entry dictionary (test fixture). -/
def mapEx1 : DiffMap :=
  [(str "b.py", ⟨ str "M", str "+b"⟩), (str "a.py", ⟨ str "??", str "+a"⟩)]

/-- The same entries as `mapEx1` inserted in the other order (test fixture). -/
def mapEx2 : DiffMap :=
  [(str "a.py", ⟨ str "??", str "+a"⟩), (str "b.py", ⟨ str "M", str "+b"⟩)]

/-! ### Basic lemmas about joining and splitting lines -/

theorem joinNL_cons (l : Str) (ls : List Str) (h : ls ≠ []) :
    joinNL (l :: ls) = l ++ '\n' :: joinNL ls := by
  cases ls with
  | nil => exact absurd rfl h
  | cons x xs => rfl

theorem joinNL_append (xs ys : List Str) (hx : xs ≠ []) (hy : ys ≠ []) :
    joinNL (xs ++ ys) = joinNL xs ++ '\n' :: joinNL ys := by
  induction xs with
  | nil => exact absurd rfl hx
  | cons a as ih =>
    cases as with
    | nil => simpa using joinNL_cons a ys hy
    | cons b bs =>
      rw [List.cons_append,
        joinNL_cons a ((b :: bs) ++ ys) (by simp),
        joinNL_cons a (b :: bs) (by simp), ih (by simp)]
      simp

theorem getLast?_cons_of_ne_nil (c : Char) (rest : Str) (h : rest ≠ []) :
    (c :: rest).getLast? = rest.getLast? := by
  cases rest with
  | nil => exact absurd rfl h
  | cons x xs => exact List.getLast?_cons_cons

theorem splitlinesAux_false_ne_nil (cs : Str) :
    ∀ acc : Str, cs ≠ [] ∨ acc ≠ [] → splitlinesAux cs acc false ≠ [] := by
  induction cs with
  | nil =>
    intro acc h
    rcases h with h | h
    · exact absurd rfl h
    · simp [splitlinesAux, h]
  | cons c rest ih =>
    intro acc _
    simp only [splitlinesAux, false_and, if_false]
    by_cases hcr : c = '\x0d'
    · simp [hcr]
    · simp only [hcr, if_false]
      by_cases hbr : isLineBreakChar c = true
      · simp [hbr]
      · simp only [hbr, if_false]
        exact ih (c :: acc) (Or.inr (by simp))

theorem splitlines_ne_nil (s : Str) (h : s ≠ []) : splitlines s ≠ [] :=
  splitlinesAux_false_ne_nil s [] (Or.inl h)

theorem splitlinesAux_cons_false (c : Char) (rest acc : Str) (hcr : c ≠ '\x0d') :
    splitlinesAux (c :: rest) acc false =
      if isLineBreakChar c = true then acc.reverse :: splitlinesAux rest [] false
      else splitlinesAux rest (c :: acc) false := by
  simp [splitlinesAux, hcr]

theorem joinNL_splitlinesAux (cs : Str) :
    ∀ acc : Str, (∀ c ∈ cs, isLineBreakChar c = true → c = '\n') →
    (cs = [] → acc ≠ []) → cs.getLast? ≠ some '\n' →
    joinNL (splitlinesAux cs acc false) = acc.reverse ++ cs := by
  induction cs with
  | nil =>
    intro acc _ h2 _
    simp [splitlinesAux, h2 rfl, joinNL]
  | cons c rest ih =>
    intro acc h1 _ h3
    have hcr : c ≠ '\x0d' := by
      intro hc
      have := h1 c (by simp) (by rw [hc]; decide)
      rw [hc] at this
      exact absurd this (by decide)
    rw [splitlinesAux_cons_false c rest acc hcr]
    by_cases hbr : isLineBreakChar c = true
    · have hcn : c = '\n' := h1 c (by simp) hbr
      have hrest : rest ≠ [] := by
        intro hr
        rw [hr, hcn] at h3
        exact h3 rfl
      rw [if_pos hbr,
        joinNL_cons _ _ (splitlinesAux_false_ne_nil rest [] (Or.inl hrest)),
        ih [] (fun x hx => h1 x (by simp [hx]) )
          (fun hr => absurd hr hrest)
          (by rw [← getLast?_cons_of_ne_nil c rest hrest]; exact h3)]
      simp [hcn]
    · rw [if_neg hbr,
        ih (c :: acc) (fun x hx => h1 x (by simp [hx]))
          (fun _ => by simp)
          (by
            cases rest with
            | nil => simp
            | cons y ys => rw [← getLast?_cons_of_ne_nil c (y :: ys) (by simp)]; exact h3)]
      simp

theorem joinNL_splitlines (s : Str)
    (h1 : ∀ c ∈ s, isLineBreakChar c = true → c = '\n')
    (h2 : s.getLast? ≠ some '\n') :
    joinNL (splitlines s) = s := by
  cases s with
  | nil => rfl
  | cons c rest =>
    simpa using joinNL_splitlinesAux (c :: rest) [] h1 (by simp) h2

/-! ### Lemmas about the hunk-splitting loop -/

theorem splitHunksLoop_nil (blocks current : List Str) :
    splitHunksLoop [] blocks current =
      if current = [] then blocks else blocks ++ [joinNL current] := rfl

theorem splitHunksLoop_cons_marker (line : Str) (rest blocks current : List Str)
    (h : isMarkerLine line = true) :
    splitHunksLoop (line :: rest) blocks current =
      splitHunksLoop rest
        (if current = [] then blocks else blocks ++ [joinNL current]) [line] := by
  simp only [isMarkerLine, Bool.or_eq_true] at h
  rcases h with h1 | h1
  · simp [splitHunksLoop, h1]
  · by_cases h2 : strStartsWith fileHeaderMarker line = true <;>
      simp [splitHunksLoop, h1, h2]

theorem splitHunksLoop_cons_other (line : Str) (rest blocks current : List Str)
    (h : isMarkerLine line = false) :
    splitHunksLoop (line :: rest) blocks current =
      splitHunksLoop rest blocks (current ++ [line]) := by
  have h12 : strStartsWith fileHeaderMarker line = false ∧
      strStartsWith hunkMarker line = false := by
    simpa [isMarkerLine] using h
  simp [splitHunksLoop, h12.1, h12.2]

theorem splitHunksLoop_blocks (lines : List Str) :
    ∀ blocks current : List Str,
    splitHunksLoop lines blocks current = blocks ++ splitHunksLoop lines [] current := by
  induction lines with
  | nil =>
    intro blocks current
    by_cases h : current = [] <;> simp [splitHunksLoop_nil, h]
  | cons line rest ih =>
    intro blocks current
    by_cases hm : isMarkerLine line = true
    · rw [splitHunksLoop_cons_marker line rest blocks current hm,
        splitHunksLoop_cons_marker line rest [] current hm]
      by_cases h : current = []
      · rw [if_pos h, if_pos h, ih blocks [line]]
      · rw [if_neg h, if_neg h, ih (blocks ++ [joinNL current]) [line],
          ih ([] ++ [joinNL current]) [line]]
        simp
    · rw [splitHunksLoop_cons_other line rest blocks current (by simpa using hm),
        splitHunksLoop_cons_other line rest [] current (by simpa using hm),
        ih blocks (current ++ [line])]

theorem splitHunksLoop_ne_nil (lines : List Str) :
    ∀ blocks current : List Str, current ≠ [] →
    splitHunksLoop lines blocks current ≠ [] := by
  induction lines with
  | nil =>
    intro blocks current h
    simp [splitHunksLoop_nil, h]
  | cons line rest ih =>
    intro blocks current h
    by_cases hm : isMarkerLine line = true
    · rw [splitHunksLoop_cons_marker line rest blocks current hm]
      exact ih _ [line] (by simp)
    · rw [splitHunksLoop_cons_other line rest blocks current (by simpa using hm)]
      exact ih blocks (current ++ [line]) (by simp)

theorem joinNL_splitHunksLoop (lines : List Str) :
    ∀ current : List Str, current ≠ [] →
    joinNL (splitHunksLoop lines [] current) = joinNL (current ++ lines) := by
  induction lines with
  | nil =>
    intro current h
    simp [splitHunksLoop_nil, h, joinNL]
  | cons line rest ih =>
    intro current h
    by_cases hm : isMarkerLine line = true
    · rw [splitHunksLoop_cons_marker line rest [] current hm, if_neg h,
        List.nil_append, splitHunksLoop_blocks, List.singleton_append,
        joinNL_cons _ _ (splitHunksLoop_ne_nil rest [] [line] (by simp)),
        ih [line] (by simp), joinNL_append current (line :: rest) h (by simp)]
      simp [joinNL]
    · rw [splitHunksLoop_cons_other line rest [] current (by simpa using hm),
        ih (current ++ [line]) (by simp)]
      simp

theorem joinNL_splitHunksLoop_start (lines : List Str) (h : lines ≠ []) :
    joinNL (splitHunksLoop lines [] []) = joinNL lines := by
  cases lines with
  | nil => exact absurd rfl h
  | cons line rest =>
    have step : splitHunksLoop (line :: rest) [] [] = splitHunksLoop rest [] [line] := by
      by_cases hm : isMarkerLine line = true
      · rw [splitHunksLoop_cons_marker line rest [] [] hm]
        simp
      · rw [splitHunksLoop_cons_other line rest [] [] (by simpa using hm)]
        simp
    rw [step, joinNL_splitHunksLoop rest [line] (by simp)]
    simp

/-! ### Prefix preservation lemmas -/

theorem startsWith_append (p : Str) :
    ∀ s t : Str, strStartsWith p s = true → strStartsWith p (s ++ t) = true := by
  induction p with
  | nil => intro s t _; rfl
  | cons a ps ih =>
    intro s t hp
    cases s with
    | nil => exact absurd hp (by simp [strStartsWith])
    | cons c cs =>
      by_cases hac : a = c
      · simpa [strStartsWith, hac] using ih cs t (by simpa [strStartsWith, hac] using hp)
      · exact absurd hp (by simp [strStartsWith, hac])

theorem startsWith_ne_nil (p s : Str) (hp : p ≠ []) (h : strStartsWith p s = true) :
    s ≠ [] := by
  cases p with
  | nil => exact absurd rfl hp
  | cons a ps =>
    cases s with
    | nil => exact absurd h (by simp [strStartsWith])
    | cons c cs => simp

theorem startsWith_joinNL_head (p h : Str) (t : List Str)
    (hp : strStartsWith p h = true) :
    strStartsWith p (joinNL (h :: t)) = true := by
  cases t with
  | nil => simpa [joinNL] using hp
  | cons y ys =>
    rw [joinNL_cons h (y :: ys) (by simp)]
    exact startsWith_append p h _ hp

theorem markerLine_joinNL_head (h : Str) (t : List Str)
    (hm : isMarkerLine h = true) :
    isMarkerLine (joinNL (h :: t)) = true := by
  simp only [isMarkerLine, Bool.or_eq_true] at hm ⊢
  rcases hm with hm | hm
  · exact Or.inl (startsWith_joinNL_head _ h t hm)
  · exact Or.inr (startsWith_joinNL_head _ h t hm)

theorem headIsFileHeader_append_other (current : List Str) (line : Str)
    (hl : isFileHeaderLine line = false) :
    headIsFileHeader (current ++ [line]) = headIsFileHeader current := by
  cases current <;> simp [headIsFileHeader, hl]

/-! ### C1: reassembly of hunk blocks -/

/-- C1: the claim as stated is false — for the input `"a\n"`, which ends
with a newline, joining the splitter's blocks with a newline yields
`"a"`, not the original text. -/
theorem c1_counterexample :
    joinNL (split_diff_into_hunks (str "a\n")) ≠ str "a\n" := by decide

/-- C1 (amended): for every input text whose only line-break character is
`'\n'` and which does not end with a line break, joining all blocks
returned by the hunk splitter with a newline reproduces the input
exactly; the empty input yields an empty sequence of blocks (the `s = []`
case of this statement, where both sides are empty). -/
theorem c1_reassembly (s : Str)
    (h1 : ∀ c ∈ s, isLineBreakChar c = true → c = '\n')
    (h2 : s.getLast? ≠ some '\n') :
    joinNL (split_diff_into_hunks s) = s := by
  by_cases hs : s = []
  · rw [hs]; rfl
  · rw [split_diff_into_hunks, if_neg hs,
      joinNL_splitHunksLoop_start (splitlines s) (splitlines_ne_nil s hs),
      joinNL_splitlines s h1 h2]

/-- C1 witness: the amended theorem applied to a concrete two-hunk diff. -/
theorem c1_reassembly_witness :
    joinNL (split_diff_into_hunks (str "diff --git a\n@@ h\n+x")) =
      str "diff --git a\n@@ h\n+x" :=
  c1_reassembly (str "diff --git a\n@@ h\n+x") (by decide) (by decide)

/-! ### C2: file-header lines open their own blocks -/

theorem countP_fileHeader_flush (current : List Str) :
    (if headIsFileHeader current = true then 1 else 0) ≤
      List.countP isFileHeaderLine
        (if current = [] then ([] : List Str) else [] ++ [joinNL current]) := by
  cases current with
  | nil => simp [headIsFileHeader]
  | cons l t =>
    rw [if_neg (show (l :: t : List Str) ≠ [] from by simp)]
    by_cases hl : isFileHeaderLine l = true
    · have hj : isFileHeaderLine (joinNL (l :: t)) = true :=
        startsWith_joinNL_head _ l t hl
      simp [headIsFileHeader, hl, List.countP_cons, hj]
    · simp [headIsFileHeader, hl, List.countP_cons]

theorem countP_fileHeader_splitHunksLoop (lines : List Str) :
    ∀ current : List Str,
    List.countP isFileHeaderLine lines +
        (if headIsFileHeader current = true then 1 else 0) ≤
      List.countP isFileHeaderLine (splitHunksLoop lines [] current) := by
  induction lines with
  | nil =>
    intro current
    rw [splitHunksLoop_nil]
    simpa using countP_fileHeader_flush current
  | cons line rest ih =>
    intro current
    by_cases hm : isMarkerLine line = true
    · rw [splitHunksLoop_cons_marker line rest [] current hm,
        splitHunksLoop_blocks, List.countP_append, List.countP_cons]
      have hrec := ih [line]
      have hh := countP_fileHeader_flush current
      by_cases hline : isFileHeaderLine line = true
      all_goals by_cases hc : headIsFileHeader current = true
      all_goals simp [hline, hc, headIsFileHeader] at hrec hh ⊢
      all_goals omega
    · have hl : isFileHeaderLine line = false := by
        simp only [isMarkerLine, Bool.or_eq_true] at hm
        simp only [isFileHeaderLine]
        exact Bool.eq_false_iff.mpr fun hx => hm (Or.inl hx)
      rw [splitHunksLoop_cons_other line rest [] current (by simpa using hm),
        List.countP_cons, hl]
      have := ih (current ++ [line])
      rw [headIsFileHeader_append_other current line hl] at this
      simpa using this

/-- C2: the hunk splitter processes lines in order, flushing at marker
lines; consequently a diff text whose lines include at least two
`"diff --git "` header lines splits into at least two blocks that start
with that marker (and hence at least two blocks in total). -/
theorem c2_two_file_headers (s : Str)
    (h : 2 ≤ List.countP isFileHeaderLine (splitlines s)) :
    2 ≤ List.countP isFileHeaderLine (split_diff_into_hunks s) ∧
    2 ≤ (split_diff_into_hunks s).length := by
  have hs : s ≠ [] := by
    intro h0
    rw [h0] at h
    simp [splitlines, splitlinesAux] at h
  rw [split_diff_into_hunks, if_neg hs]
  have hcount := countP_fileHeader_splitHunksLoop (splitlines s) []
  rw [if_neg (by simp [headIsFileHeader])] at hcount
  have h2 : 2 ≤ List.countP isFileHeaderLine
      (splitHunksLoop (splitlines s) [] []) := by omega
  exact ⟨h2, le_trans h2 (List.countP_le_length _)⟩

/-- C2 witness: a two-file diff with two header lines. -/
theorem c2_two_file_headers_witness :
    2 ≤ List.countP isFileHeaderLine
        (split_diff_into_hunks (str "diff --git a b\nx\ndiff --git c d\ny")) ∧
    2 ≤ (split_diff_into_hunks (str "diff --git a b\nx\ndiff --git c d\ny")).length :=
  c2_two_file_headers (str "diff --git a b\nx\ndiff --git c d\ny") (by decide)

/-! ### C9: emptiness of blocks -/

theorem marker_splitHunksLoop (lines : List Str) :
    ∀ current : List Str, headIsMarker current = true →
    ∀ b ∈ splitHunksLoop lines [] current, isMarkerLine b = true := by
  induction lines with
  | nil =>
    intro current hc b hb
    cases current with
    | nil => simp [headIsMarker] at hc
    | cons l t =>
      rw [splitHunksLoop_nil, if_neg (by simp)] at hb
      simp at hb
      rw [hb]
      exact markerLine_joinNL_head l t (by simpa [headIsMarker] using hc)
  | cons line rest ih =>
    intro current hc b hb
    by_cases hm : isMarkerLine line = true
    · rw [splitHunksLoop_cons_marker line rest [] current hm,
        splitHunksLoop_blocks] at hb
      cases current with
      | nil => simp [headIsMarker] at hc
      | cons l t =>
        rw [if_neg (by simp)] at hb
        rcases List.mem_append.mp hb with hb | hb
        · simp at hb
          rw [hb]
          exact markerLine_joinNL_head l t (by simpa [headIsMarker] using hc)
        · exact ih [line] (by simpa [headIsMarker] using hm) b hb
    · rw [splitHunksLoop_cons_other line rest [] current (by simpa using hm)] at hb
      cases current with
      | nil => simp [headIsMarker] at hc
      | cons l t =>
        exact ih ((l :: t) ++ [line]) (by simpa [headIsMarker] using hc) b hb

theorem tail_marker_splitHunksLoop (lines : List Str) :
    ∀ current : List Str,
    ∀ b ∈ (splitHunksLoop lines [] current).tail, isMarkerLine b = true := by
  induction lines with
  | nil =>
    intro current b hb
    rw [splitHunksLoop_nil] at hb
    by_cases h : current = [] <;> simp [h] at hb
  | cons line rest ih =>
    intro current b hb
    by_cases hm : isMarkerLine line = true
    · rw [splitHunksLoop_cons_marker line rest [] current hm] at hb
      by_cases h : current = []
      · rw [if_pos h] at hb
        exact marker_splitHunksLoop rest [line]
          (by simpa [headIsMarker] using hm) b (List.mem_of_mem_tail hb)
      · rw [if_neg h, List.nil_append, splitHunksLoop_blocks,
          List.singleton_append, List.tail_cons] at hb
        exact marker_splitHunksLoop rest [line]
          (by simpa [headIsMarker] using hm) b hb
    · rw [splitHunksLoop_cons_other line rest [] current (by simpa using hm)] at hb
      exact ih (current ++ [line]) b hb

/-- C9: the claim as stated is false — for the input `"\n"` the splitter
returns the single block `""`, an empty string. -/
theorem c9_counterexample :
    ([] : Str) ∈ split_diff_into_hunks (str "\n") := by decide

/-- C9 (amended): blocks are emitted in source order, and every block
after the first one starts with a marker line (`"diff --git "` or
`"@@ "`) and is therefore non-empty; only the first block — the text
accumulated before the first marker — can be the empty string (as happens
for the input `"\n"`). -/
theorem c9_tail_blocks_marked (s : Str) :
    ((split_diff_into_hunks s).tail).all
      (fun b => isMarkerLine b && !b.isEmpty) = true := by
  rw [List.all_eq_true]
  intro b hb
  by_cases hs : s = []
  · rw [hs] at hb
    simp [split_diff_into_hunks] at hb
  · rw [split_diff_into_hunks, if_neg hs] at hb
    have hmark := tail_marker_splitHunksLoop (splitlines s) [] b hb
    have hne : b ≠ [] := by
      simp only [isMarkerLine, Bool.or_eq_true] at hmark
      rcases hmark with hx | hx
      · exact startsWith_ne_nil _ b (by decide) hx
      · exact startsWith_ne_nil _ b (by decide) hx
    simp [hmark, hne]

/-! ### C3: the status parser -/

theorem arrowSep_eq : arrowSep = [' ', '-', '>', ' '] := by decide

theorem startsWith_shape (p : Str) :
    ∀ s, strStartsWith p s = true → s = p ++ s.drop p.length := by
  induction p with
  | nil => intro s _; simp
  | cons a ps ih =>
    intro s hp
    cases s with
    | nil => exact absurd hp (by simp [strStartsWith])
    | cons c cs =>
      by_cases hac : a = c
      · subst hac
        have h2 := ih cs (by simpa [strStartsWith] using hp)
        conv_lhs => rw [h2]
        simp
      · exact absurd hp (by simp [strStartsWith, hac])

theorem arrow_shape (c : Char) (cs : Str)
    (h : strStartsWith arrowSep (c :: cs) = true) :
    c = ' ' ∧ cs = '-' :: '>' :: ' ' :: cs.drop 3 := by
  have hx := startsWith_shape arrowSep (c :: cs) h
  rw [arrowSep_eq] at hx
  simp only [List.cons_append, List.nil_append, List.cons.injEq] at hx
  obtain ⟨hc, hcs⟩ := hx
  refine ⟨hc, ?_⟩
  conv_lhs => rw [hcs]
  simp [arrowSep_eq]

theorem splitArrowAux_cons_other (c : Char) (cs acc : Str)
    (h : ¬ strStartsWith arrowSep (c :: cs) = true) :
    splitArrowAux (c :: cs) acc = splitArrowAux cs (c :: acc) := by
  rw [splitArrowAux.eq_def]
  simp [h]

theorem splitArrowAux_cons_arrow (c x1 x2 x3 : Char) (t acc : Str)
    (h : strStartsWith arrowSep (c :: x1 :: x2 :: x3 :: t) = true) :
    splitArrowAux (c :: x1 :: x2 :: x3 :: t) acc =
      acc.reverse :: splitArrowAux t [] := by
  rw [splitArrowAux.eq_def]
  simp [h]

theorem joinArrow_cons (l : Str) (ls : List Str) (h : ls ≠ []) :
    joinArrow (l :: ls) = l ++ arrowSep ++ joinArrow ls := by
  cases ls with
  | nil => exact absurd rfl h
  | cons x xs => rfl

theorem splitArrowAux_ne_nil (s acc : Str) : splitArrowAux s acc ≠ [] := by
  induction s, acc using splitArrowAux.induct with
  | case1 acc => simp [splitArrowAux]
  | case2 c acc h1 h2 h3 cs3 harrow ih =>
    rw [splitArrowAux_cons_arrow c h1 h2 h3 cs3 acc harrow]
    simp
  | case3 c cs acc harrow hshort =>
    obtain ⟨hc, hcs⟩ := arrow_shape c cs harrow
    exact absurd hcs.symm (fun hx => hshort '-' '>' ' ' (cs.drop 3) hx.symm)
  | case4 c cs acc harrow ih =>
    rw [splitArrowAux_cons_other c cs acc harrow]
    exact ih

theorem joinArrow_splitArrowAux (s acc : Str) :
    joinArrow (splitArrowAux s acc) = acc.reverse ++ s := by
  induction s, acc using splitArrowAux.induct with
  | case1 acc =>
    simp [splitArrowAux, joinArrow]
  | case2 c acc h1 h2 h3 cs3 harrow ih =>
    obtain ⟨hc, hcs⟩ := arrow_shape c _ harrow
    simp only [List.cons.injEq] at hcs
    obtain ⟨e1, e2, e3, _⟩ := hcs
    rw [splitArrowAux_cons_arrow c h1 h2 h3 cs3 acc harrow,
      joinArrow_cons _ _ (splitArrowAux_ne_nil cs3 []), ih]
    subst hc e1 e2 e3
    simp [arrowSep_eq]
  | case3 c cs acc harrow hshort =>
    obtain ⟨hc, hcs⟩ := arrow_shape c cs harrow
    exact absurd hcs.symm (fun hx => hshort '-' '>' ' ' (cs.drop 3) hx.symm)
  | case4 c cs acc harrow ih =>
    rw [splitArrowAux_cons_other c cs acc harrow, ih]
    simp

theorem specAfterArrow_of_splitArrowAux (s acc : Str) :
    ∀ p q t, splitArrowAux s acc = p :: q :: t →
    specAfterArrow s = some (joinArrow (q :: t)) := by
  induction s, acc using splitArrowAux.induct with
  | case1 acc => intro p q t h; simp [splitArrowAux] at h
  | case2 c acc h1 h2 h3 cs3 harrow ih =>
    intro p q t h
    rw [splitArrowAux_cons_arrow c h1 h2 h3 cs3 acc harrow] at h
    have htail : splitArrowAux cs3 [] = q :: t := by
      simp only [List.cons.injEq] at h
      exact h.2
    rw [show specAfterArrow (c :: h1 :: h2 :: h3 :: cs3) = some cs3 by
      simp [specAfterArrow, harrow]]
    have := joinArrow_splitArrowAux cs3 []
    rw [htail] at this
    simp only [List.reverse_nil, List.nil_append] at this
    rw [this]
  | case3 c cs acc harrow hshort =>
    intro p q t h
    obtain ⟨hc, hcs⟩ := arrow_shape c cs harrow
    exact absurd hcs.symm (fun hx => hshort '-' '>' ' ' (cs.drop 3) hx.symm)
  | case4 c cs acc harrow ih =>
    intro p q t h
    rw [splitArrowAux_cons_other c cs acc harrow] at h
    rw [show specAfterArrow (c :: cs) = specAfterArrow cs by
      simp [specAfterArrow, harrow]]
    exact ih p q t h

theorem splitArrowAux_of_not_contains (s : Str) :
    ∀ acc, containsSub arrowSep s = false → splitArrowAux s acc = [acc.reverse ++ s] := by
  induction s with
  | nil => intro acc _; simp [splitArrowAux]
  | cons c cs ih =>
    intro acc h
    simp only [containsSub, Bool.or_eq_false_iff] at h
    rw [splitArrowAux_cons_other c cs acc (by simp [h.1]), ih (c :: acc) h.2]
    simp

theorem head_dropWhile_false (p : Char → Bool) (l : Str) :
    ∀ c t, l.dropWhile p = c :: t → p c = false := by
  induction l with
  | nil => intro c t h; simp at h
  | cons x xs ih =>
    intro c t h
    rw [List.dropWhile_cons] at h
    by_cases hx : p x = true
    · rw [if_pos hx] at h
      exact ih c t h
    · rw [if_neg hx] at h
      injection h with h1 _
      rw [← h1]
      exact Bool.eq_false_iff.mpr hx

theorem pyStrip_cons_ne_nil (c : Char) (t : Str) (hc : isPySpace c = false) :
    pyStrip (c :: t) ≠ [] := by
  have h1 : List.dropWhile isPySpace (c :: t) = c :: t := by
    rw [List.dropWhile_cons, if_neg (by simp [hc])]
  simp only [pyStrip, h1]
  intro hnil
  rw [List.reverse_eq_nil_iff, List.dropWhile_eq_nil_iff] at hnil
  have := hnil c (by simp)
  rw [hc] at this
  exact absurd this (by decide)

theorem splitNone1_snd_strip_ne_nil (line a b : Str)
    (h : splitNone1 line = [a, b]) : pyStrip b ≠ [] := by
  rw [splitNone1] at h
  split at h
  · simp at h
  · split at h
    · simp at h
    · rename_i hrest
      simp only [List.cons.injEq, and_true] at h
      obtain ⟨_, hb⟩ := h
      rw [← hb]
      rcases hshape : ((line.dropWhile isPySpace).dropWhile
          (fun c => !(isPySpace c))).dropWhile isPySpace with _ | ⟨c, t⟩
      · rw [hshape] at hrest
        exact absurd rfl hrest
      · exact pyStrip_cons_ne_nil c t (head_dropWhile_false isPySpace _ c t hshape)

/-- C3: the claim as stated is false — for the status report
`"R a -> \nM b"` (a rename line with nothing after the arrow), the parser
produces a record whose path is the empty string. -/
theorem c3_counterexample :
    ∃ r ∈ parseStatus (str "R a -> \nM b"), r.path = [] := by decide

/-- C3 (amended): every record produced from a line that does not take
the rename/copy arrow branch has a non-empty path; a rename/copy line
whose remainder contains the separator `" -> "` exactly once resolves to
the trimmed substring after the separator (the spec's description,
witnessed here by `specAfterArrow`), which may be empty when nothing
follows the arrow. -/
theorem c3_parser_paths (line status rest : Str) (r : ChangeRecord)
    (hsplit : splitNone1 line = [status, rest])
    (hsome : parseStatusLine line = some r) :
    ((¬(containsSub arrowSep rest = true ∧
        (strStartsWith (str "R") status = true ∨
         strStartsWith (str "C") status = true))) → r.path ≠ []) ∧
    (∀ p q, (strStartsWith (str "R") status = true ∨
        strStartsWith (str "C") status = true) →
      splitArrow rest = [p, q] →
      specAfterArrow rest = some q ∧ r.path = pyStrip q) := by
  rw [parseStatusLine, hsplit] at hsome
  simp only [Option.some.injEq] at hsome
  constructor
  · intro hcond
    rw [← hsome]
    simp only [if_neg hcond]
    exact splitNone1_snd_strip_ne_nil line status rest hsplit
  · intro p q hrc hsa
    have hcontains : containsSub arrowSep rest = true := by
      rcases hx : containsSub arrowSep rest with _ | _
      · have := splitArrowAux_of_not_contains rest [] hx
        rw [splitArrow, this] at hsa
        simp at hsa
      · rfl
    have hafter : specAfterArrow rest = some (joinArrow [q]) :=
      specAfterArrow_of_splitArrowAux rest [] p q [] hsa
    refine ⟨by simpa [joinArrow] using hafter, ?_⟩
    rw [← hsome]
    rw [if_pos ⟨hcontains, hrc⟩, hsa]
    rfl

/-- C3 witness: the amended theorem applied to the line `"R old -> new"`. -/
theorem c3_parser_paths_witness :
    specAfterArrow (str "old -> new") = some (str "new") ∧
    (ChangeRecord.mk (str "R") (str "new")).path = pyStrip (str "new") :=
  (c3_parser_paths (str "R old -> new") (str "R") (str "old -> new")
      ⟨ str "R", str "new"⟩ (by decide) (by decide)).2
    (str "old") (str "new") (Or.inl (by decide)) (by decide)

/-! ### C4 and C10: the command runner -/

theorem pyStrip_getLast_not_space (s : Str) (c : Char)
    (h : (pyStrip s).getLast? = some c) : isPySpace c = false := by
  rw [pyStrip, List.getLast?_reverse] at h
  rcases hshape : (s.dropWhile isPySpace).reverse.dropWhile isPySpace with _ | ⟨x, xs⟩
  · rw [hshape] at h
    simp at h
  · rw [hshape] at h
    simp only [List.head?_cons, Option.some.injEq] at h
    rw [← h]
    exact head_dropWhile_false isPySpace _ x xs hshape

theorem pyStrip_getLast_ne_newline (s : Str) :
    (pyStrip s).getLast? ≠ some '\n' := by
  intro h
  have := pyStrip_getLast_not_space s '\n' h
  exact absurd this (by decide)

/-- C4: the command runner reports success for a command whose first
argument is `"diff"` exiting with code exactly 1, and reports failure
exactly when the executable is missing, an unexpected execution fault
occurs, or the exit code is nonzero and the command is not a
diff-with-exit-code-1. -/
theorem c4_runner_success (parts : List Str) :
    (execute_git_command parts .fileNotFound).2 = false ∧
    (execute_git_command parts .execError).2 = false ∧
    (∀ out err code, (execute_git_command parts (.completed out err code)).2 = false ↔
      (code ≠ 0 ∧ ¬(parts.headD [] = str "diff" ∧ code = 1))) ∧
    (∀ out err, parts.headD [] = str "diff" →
      (execute_git_command parts (.completed out err 1)).2 = true) := by
  refine ⟨rfl, rfl, ?_, ?_⟩
  · intro out err code
    simp only [execute_git_command]
    by_cases hd : parts.headD [] = str "diff" ∧ code = 1
    · rw [if_pos hd]
      constructor
      · intro hx
        exact absurd hx (by simp)
      · intro hx
        exact absurd hd hx.2
    · rw [if_neg hd]
      by_cases hc : code = 0
      · rw [if_neg (not_not_intro hc)]
        constructor
        · intro hx
          exact absurd hx (by simp)
        · intro hx
          exact absurd hc hx.1
      · rw [if_pos hc]
        exact ⟨fun _ => ⟨hc, fun hx => hd hx⟩, fun _ => rfl⟩
  · intro out err hdiff
    simp only [execute_git_command]
    rw [if_pos (⟨hdiff, trivial⟩ : parts.headD [] = str "diff" ∧ True)]

/-- C4 witness: a `diff` command exiting with code 1 succeeds. -/
theorem c4_runner_success_witness :
    (execute_git_command [str "diff"] (.completed (str "x") [] 1)).2 = true :=
  (c4_runner_success [str "diff"]).2.2.2 (str "x") [] rfl

/-- C10: whenever output was captured (the process completed), the text
returned by the command runner is the captured standard output stripped
of leading and trailing whitespace, and in every case the returned text
never ends with a newline character. -/
theorem c10_stripped_output (parts : List Str) (outcome : ExecOutcome) :
    (∀ out err code, outcome = .completed out err code →
      (execute_git_command parts outcome).1 = pyStrip out) ∧
    (execute_git_command parts outcome).1.getLast? ≠ some '\n' := by
  constructor
  · intro out err code heq
    subst heq
    simp only [execute_git_command]
    split
    · rfl
    · split
      · rfl
      · rfl
  · cases outcome with
    | completed out err code =>
      simp only [execute_git_command]
      split
      · exact pyStrip_getLast_ne_newline out
      · split
        · exact pyStrip_getLast_ne_newline out
        · exact pyStrip_getLast_ne_newline out
    | fileNotFound => simp [execute_git_command]
    | execError => simp [execute_git_command]

/-- C10 witness: the theorem applied to a completed `diff` invocation
whose raw output ends in a newline. -/
theorem c10_stripped_output_witness :
    (execute_git_command [str "diff"] (.completed (str "out\n") [] 0)).1 =
      pyStrip (str "out\n") :=
  (c10_stripped_output [str "diff"] (.completed (str "out\n") [] 0)).1
    (str "out\n") [] 0 rfl

/-! ### C5: the binary classifier -/

/-- C5: the binary classifier answers `true` iff the retrieved diff
command (the `HEAD` diff, or its `--no-index` retry) succeeded and its
text contains both `"Binary files "` and `" differ"`; any failure of the
retrieved command yields `false`. -/
theorem c5_binary_classifier (git : List Str → ExecOutcome) (file_path : Str) :
    (is_binary_file git file_path = true ↔
      ((retrievedDiff git file_path).2 = true ∧
       containsSub (str "Binary files ") (retrievedDiff git file_path).1 = true ∧
       containsSub (str " differ") (retrievedDiff git file_path).1 = true)) ∧
    ((retrievedDiff git file_path).2 = false →
      is_binary_file git file_path = false) := by
  constructor
  · simp only [is_binary_file]
    by_cases hc : ((retrievedDiff git file_path).2 = true ∧
        containsSub (str "Binary files ") (retrievedDiff git file_path).1 = true ∧
        containsSub (str " differ") (retrievedDiff git file_path).1 = true)
    · rw [if_pos hc]
      simp [hc]
    · rw [if_neg hc]
      simp [hc]
  · intro hfail
    simp only [is_binary_file]
    rw [if_neg (fun hcond => absurd hcond.1 (by simp [hfail]))]

/-- C5 witness: a diff reporting Git binary markers classifies as binary. -/
theorem c5_binary_classifier_witness :
    is_binary_file gitExBinary (str "x") = true :=
  (c5_binary_classifier gitExBinary (str "x")).1.mpr
    ⟨by decide, by decide, by decide⟩

/-! ### C6: recording of diff entries -/

theorem mem_mapKeys_mapInsert (m : DiffMap) (k : Str) (v : DiffEntry) (x : Str) :
    x ∈ mapKeys (mapInsert m k v) ↔ x = k ∨ x ∈ mapKeys m := by
  induction m with
  | nil => simp [mapInsert, mapKeys]
  | cons p t ih =>
    obtain ⟨k1, v1⟩ := p
    by_cases hk : k1 = k
    · subst hk
      rw [show mapInsert ((k1, v1) :: t) k1 v = (k1, v) :: t from by
        simp [mapInsert]]
      simp only [mapKeys, List.map_cons, List.mem_cons]
      tauto
    · rw [show mapInsert ((k1, v1) :: t) k v = (k1, v1) :: mapInsert t k v from by
        simp [mapInsert, hk]]
      simp only [mapKeys, List.map_cons, List.mem_cons] at ih ⊢
      rw [show (x ∈ List.map Prod.fst (mapInsert t k v)) ↔
        (x = k ∨ x ∈ List.map Prod.fst t) from ih]
      tauto

theorem untrackedSubStep_eq (env : Env) (cfg : Config)
    (fe : Option (List Str)) (acc : DiffMap) (sub : Str) :
    untrackedSubStep env cfg fe acc sub =
      if subInsertCond env cfg fe sub = true then
        mapInsert acc sub
          ⟨ str "Untracked", pyStrip (runGit env.git (gitNoIndexCmd sub)).1⟩
      else acc := by
  simp only [untrackedSubStep, subInsertCond]
  by_cases h1 : extFilterRejects fe sub = true
  · simp [h1]
  · simp only [h1, if_false]
    by_cases h2 : cfg.ignore_binaries = true ∧ is_binary_file env.git sub = true
    · simp [h2]
    · simp only [h2, if_false]
      by_cases h3 : (runGit env.git (gitNoIndexCmd sub)).2 = true ∧
          pyStrip (runGit env.git (gitNoIndexCmd sub)).1 ≠ []
      · simp [h3]
      · simp [h3]

theorem mem_mapKeys_foldl_untracked (env : Env) (cfg : Config)
    (fe : Option (List Str)) (subs : List Str) :
    ∀ (m : DiffMap) (k : Str),
    k ∈ mapKeys (subs.foldl (untrackedSubStep env cfg fe) m) ↔
      k ∈ mapKeys m ∨ (k ∈ subs ∧ subInsertCond env cfg fe k = true) := by
  induction subs with
  | nil => simp
  | cons s t ih =>
    intro m k
    rw [List.foldl_cons, ih, untrackedSubStep_eq]
    by_cases hc : subInsertCond env cfg fe s = true
    · rw [if_pos hc, mem_mapKeys_mapInsert]
      constructor
      · rintro ((rfl | hm) | ⟨ht, hck⟩)
        · exact Or.inr ⟨by simp, hc⟩
        · exact Or.inl hm
        · exact Or.inr ⟨by simp [ht], hck⟩
      · rintro (hm | ⟨hst, hck⟩)
        · exact Or.inl (Or.inr hm)
        · rcases List.mem_cons.mp hst with rfl | ht
          · exact Or.inl (Or.inl rfl)
          · exact Or.inr ⟨ht, hck⟩
    · rw [if_neg hc]
      constructor
      · rintro (hm | ⟨ht, hck⟩)
        · exact Or.inl hm
        · exact Or.inr ⟨by simp [ht], hck⟩
      · rintro (hm | ⟨hst, hck⟩)
        · exact Or.inl hm
        · rcases List.mem_cons.mp hst with rfl | ht
          · exact absurd hck hc
          · exact Or.inr ⟨ht, hck⟩

/-- C6: a `DiffEntry` is recorded for a processed path exactly when its
diff fetch succeeded with non-empty trimmed text (for tracked paths,
untracked files, and each filtered sub-file of an untracked directory),
and a run that passes the repository checks and the status fetch returns
exit code 0 regardless of per-file fetch failures. -/
theorem c6_entry_recorded (env : Env) (cfg : Config)
    (fe : Option (List Str)) (status fpath : Str) :
    (status ≠ str "??" →
      (fpath ∈ mapKeys (check_and_handle_untracked_change env cfg status fpath fe []) ↔
        ((runGit env.git (gitDiffHeadCmd fpath)).2 = true ∧
         pyStrip (runGit env.git (gitDiffHeadCmd fpath)).1 ≠ []))) ∧
    (status = str "??" → env.isDir fpath = false →
      (fpath ∈ mapKeys (check_and_handle_untracked_change env cfg status fpath fe []) ↔
        ((runGit env.git (gitNoIndexCmd fpath)).2 = true ∧
         pyStrip (runGit env.git (gitNoIndexCmd fpath)).1 ≠ []))) ∧
    (∀ sub, status = str "??" → env.isDir fpath = true → sub ∈ env.walk fpath →
      extFilterRejects fe sub = false →
      ¬(cfg.ignore_binaries = true ∧ is_binary_file env.git sub = true) →
      (sub ∈ mapKeys (check_and_handle_untracked_change env cfg status fpath fe []) ↔
        ((runGit env.git (gitNoIndexCmd sub)).2 = true ∧
         pyStrip (runGit env.git (gitNoIndexCmd sub)).1 ≠ []))) ∧
    (∀ ff, env.repoExists = true → env.hasGitDir = true →
      (runGit env.git gitStatusCmd).2 = true →
      (run_diff_logic env cfg fe ff).1 = 0) := by
  refine ⟨?_, ?_, ?_, ?_⟩
  · intro hstat
    simp only [check_and_handle_untracked_change]
    rw [if_neg hstat]
    by_cases hcond : (runGit env.git (gitDiffHeadCmd fpath)).2 = true ∧
        pyStrip (runGit env.git (gitDiffHeadCmd fpath)).1 ≠ []
    · rw [if_pos hcond]
      simp [mem_mapKeys_mapInsert, hcond]
    · rw [if_neg hcond]
      simp [mapKeys, hcond]
  · intro hstat hdir
    simp only [check_and_handle_untracked_change]
    rw [if_pos hstat, if_neg (by simp [hdir])]
    by_cases hcond : (runGit env.git (gitNoIndexCmd fpath)).2 = true ∧
        pyStrip (runGit env.git (gitNoIndexCmd fpath)).1 ≠ []
    · rw [if_pos hcond]
      simp [mem_mapKeys_mapInsert, hcond]
    · rw [if_neg hcond]
      simp [mapKeys, hcond]
  · intro sub hstat hdir hwalk hext hbin
    simp only [check_and_handle_untracked_change]
    rw [if_pos hstat, if_pos hdir, mem_mapKeys_foldl_untracked]
    have hcondeq : subInsertCond env cfg fe sub =
        decide ((runGit env.git (gitNoIndexCmd sub)).2 = true ∧
          pyStrip (runGit env.git (gitNoIndexCmd sub)).1 ≠ []) := by
      rw [subInsertCond, if_neg (by simp [hext]), if_neg hbin]
    rw [hcondeq]
    simp [mapKeys, hwalk]
  · intro ff h1 h2 h3
    simp only [run_diff_logic]
    rw [if_neg (by simp [h1]), if_neg (by simp [h2]), if_neg (by simp [h3])]
    split
    · rfl
    · rfl

/-- C6 witness: the exit-code clause applied to a concrete healthy run. -/
theorem c6_entry_recorded_witness :
    (run_diff_logic envExTracked cfgPlain none none).1 = 0 :=
  (c6_entry_recorded envExTracked cfgPlain none (str "M") (str "main.py")).2.2.2
    none (by decide) (by decide) (by decide)

/-! ### C7: the filename filter -/

theorem foldl_preserve {α β : Type} (step : β → α → β) (Inv : β → Prop) :
    ∀ (l : List α) (b : β), (∀ a ∈ l, ∀ x, Inv x → Inv (step x a)) → Inv b →
    Inv (l.foldl step b) := by
  intro l
  induction l with
  | nil => intro b _ hb; exact hb
  | cons a t ih =>
    intro b h hb
    exact ih (step b a) (fun y hy => h y (by simp [hy])) (h a (by simp) b hb)

theorem basename_of_nameFilter_pass (f p : Str) (hf : f ≠ [])
    (hn : ¬ nameFilterRejects (some f) p = true) : basename p = f := by
  by_cases hfb : f = basename p
  · exact hfb.symm
  · exact absurd (by simp [nameFilterRejects, hf, hfb]) hn

/-- C7: the claim as stated is false — with the filename filter
`"main.py"` and an untracked directory named `main.py`, the collected
results contain the sub-file path `"main.py/other.txt"`, whose final
component is not `"main.py"`. -/
theorem c7_counterexample :
    ∃ k ∈ mapKeys
        (run_diff_logic envExUntrackedDir cfgPlain none (some (str "main.py"))).2,
      basename k ≠ str "main.py" := by decide

/-- C7 (amended): when the filename filter is set, every record whose
final path component differs from the filter is skipped, so every
collected path either has final component equal to the filter or is a
walked sub-file of an untracked directory record whose own final
component equals the filter. -/
theorem c7_name_filter (env : Env) (cfg : Config) (fe : Option (List Str))
    (f : Str) (hf : f ≠ []) (k : Str)
    (hk : k ∈ mapKeys (run_diff_logic env cfg fe (some f)).2) :
    basename k = f ∨
    ∃ r ∈ parseStatus (runGit env.git gitStatusCmd).1,
      r.statusCode = str "??" ∧ env.isDir r.path = true ∧
      basename r.path = f ∧ k ∈ env.walk r.path := by
  simp only [run_diff_logic] at hk
  by_cases h1 : env.repoExists = false
  · rw [if_pos h1] at hk
    simp [mapKeys] at hk
  rw [if_neg h1] at hk
  by_cases h2 : env.hasGitDir = false
  · rw [if_pos h2] at hk
    simp [mapKeys] at hk
  rw [if_neg h2] at hk
  by_cases h3 : (runGit env.git gitStatusCmd).2 = false
  · rw [if_pos h3] at hk
    simp [mapKeys] at hk
  rw [if_neg h3] at hk
  by_cases h4 : parseStatus (runGit env.git gitStatusCmd).1 = []
  · rw [if_pos h4] at hk
    simp [mapKeys] at hk
  rw [if_neg h4] at hk
  have hstep : ∀ r ∈ parseStatus (runGit env.git gitStatusCmd).1, ∀ acc : DiffMap,
      (∀ x ∈ mapKeys acc, basename x = f ∨
        ∃ s ∈ parseStatus (runGit env.git gitStatusCmd).1,
          s.statusCode = str "??" ∧ env.isDir s.path = true ∧
          basename s.path = f ∧ x ∈ env.walk s.path) →
      (∀ x ∈ mapKeys (runStep env cfg fe (some f) acc r), basename x = f ∨
        ∃ s ∈ parseStatus (runGit env.git gitStatusCmd).1,
          s.statusCode = str "??" ∧ env.isDir s.path = true ∧
          basename s.path = f ∧ x ∈ env.walk s.path) := by
    intro r hr acc hInv x hx
    simp only [runStep] at hx
    by_cases hn : nameFilterRejects (some f) r.path = true
    · rw [if_pos hn] at hx
      exact hInv x hx
    rw [if_neg hn] at hx
    have hbase : basename r.path = f := basename_of_nameFilter_pass f r.path hf hn
    by_cases he : extFilterRejects fe r.path = true
    · rw [if_pos he] at hx
      exact hInv x hx
    rw [if_neg he] at hx
    by_cases hbin : cfg.ignore_binaries = true ∧ is_binary_file env.git r.path = true
    · rw [if_pos hbin] at hx
      exact hInv x hx
    rw [if_neg hbin] at hx
    simp only [check_and_handle_untracked_change] at hx
    by_cases hq : r.statusCode = str "??"
    · rw [if_pos hq] at hx
      by_cases hd : env.isDir r.path = true
      · rw [if_pos hd, mem_mapKeys_foldl_untracked] at hx
        rcases hx with hx | ⟨hw, -⟩
        · exact hInv x hx
        · exact Or.inr ⟨r, hr, hq, hd, hbase, hw⟩
      · rw [if_neg hd] at hx
        by_cases hfetch : (runGit env.git (gitNoIndexCmd r.path)).2 = true ∧
            pyStrip (runGit env.git (gitNoIndexCmd r.path)).1 ≠ []
        · rw [if_pos hfetch, mem_mapKeys_mapInsert] at hx
          rcases hx with rfl | hx
          · exact Or.inl hbase
          · exact hInv x hx
        · rw [if_neg hfetch] at hx
          exact hInv x hx
    · rw [if_neg hq] at hx
      by_cases hfetch : (runGit env.git (gitDiffHeadCmd r.path)).2 = true ∧
          pyStrip (runGit env.git (gitDiffHeadCmd r.path)).1 ≠ []
      · rw [if_pos hfetch, mem_mapKeys_mapInsert] at hx
        rcases hx with rfl | hx
        · exact Or.inl hbase
        · exact hInv x hx
      · rw [if_neg hfetch] at hx
        exact hInv x hx
  have hinv := foldl_preserve (runStep env cfg fe (some f))
    (fun m => ∀ x ∈ mapKeys m, basename x = f ∨
      ∃ s ∈ parseStatus (runGit env.git gitStatusCmd).1,
        s.statusCode = str "??" ∧ env.isDir s.path = true ∧
        basename s.path = f ∧ x ∈ env.walk s.path)
    (parseStatus (runGit env.git gitStatusCmd).1) [] hstep
    (by intro x hx; simp [mapKeys] at hx)
  exact hinv k hk

/-- C7 witness: the amended theorem applied to a run with one tracked
record whose final component matches the filter. -/
theorem c7_name_filter_witness :
    basename (str "main.py") = str "main.py" ∨
    ∃ r ∈ parseStatus (runGit envExTracked.git gitStatusCmd).1,
      r.statusCode = str "??" ∧ envExTracked.isDir r.path = true ∧
      basename r.path = str "main.py" ∧ str "main.py" ∈ envExTracked.walk r.path :=
  c7_name_filter envExTracked cfgPlain none (str "main.py") (by decide)
    (str "main.py") (by decide)

/-! ### C8: JSON rendering -/

theorem lexLe_total (a : Str) : ∀ b : Str, lexLe a b = true ∨ lexLe b a = true := by
  induction a with
  | nil => intro b; exact Or.inl rfl
  | cons x xs ih =>
    intro b
    cases b with
    | nil => exact Or.inr rfl
    | cons y ys =>
      by_cases hxy : x = y
      · subst hxy
        rcases ih ys with h | h
        · exact Or.inl (by simp [lexLe, h])
        · exact Or.inr (by simp [lexLe, h])
      · rcases lt_or_gt_of_ne hxy with hlt | hlt
        · exact Or.inl (by simp [lexLe, hxy, hlt])
        · exact Or.inr (by simp [lexLe, Ne.symm hxy, hlt])

theorem lexLe_trans (a : Str) :
    ∀ b c : Str, lexLe a b = true → lexLe b c = true → lexLe a c = true := by
  induction a with
  | nil => intro b c _ _; rfl
  | cons x xs ih =>
    intro b c hab hbc
    cases b with
    | nil => exact absurd hab (by simp [lexLe])
    | cons y ys =>
      cases c with
      | nil => exact absurd hbc (by simp [lexLe])
      | cons z zs =>
        by_cases hxy : x = y
        · subst hxy
          by_cases hyz : x = z
          · subst hyz
            simp only [lexLe, if_pos rfl] at hab hbc ⊢
            exact ih ys zs hab hbc
          · simp only [lexLe, if_pos rfl, if_neg hyz] at hbc ⊢
            exact hbc
        · by_cases hyz : y = z
          · subst hyz
            simp only [lexLe, if_neg hxy] at hab ⊢
            exact hab
          · simp only [lexLe, if_neg hxy, if_neg hyz, decide_eq_true_eq] at hab hbc
            have hxz : x ≠ z := fun he => absurd (he ▸ hab) (lt_asymm hbc)
            simp only [lexLe, if_neg hxz, decide_eq_true_eq]
            exact lt_trans hab hbc

theorem lexLe_antisymm (a : Str) :
    ∀ b : Str, lexLe a b = true → lexLe b a = true → a = b := by
  induction a with
  | nil =>
    intro b _ hba
    cases b with
    | nil => rfl
    | cons y ys => exact absurd hba (by simp [lexLe])
  | cons x xs ih =>
    intro b hab hba
    cases b with
    | nil => exact absurd hab (by simp [lexLe])
    | cons y ys =>
      by_cases hxy : x = y
      · subst hxy
        simp only [lexLe, if_pos rfl] at hab hba
        rw [ih ys hab hba]
      · simp only [lexLe, if_neg hxy, if_neg (Ne.symm hxy), decide_eq_true_eq]
          at hab hba
        exact absurd hab (lt_asymm hba)

theorem mapGet_of_perm :
    ∀ {m₁ m₂ : DiffMap}, m₁.Perm m₂ → (mapKeys m₁).Nodup →
    ∀ k, mapGet m₁ k = mapGet m₂ k := by
  intro m₁ m₂ hperm
  induction hperm with
  | nil => intro _ k; rfl
  | cons p h ih =>
    intro hnd k
    obtain ⟨k1, v1⟩ := p
    have hnd2 := hnd
    simp only [mapKeys, List.map_cons, List.nodup_cons] at hnd2
    by_cases hk : k1 = k
    · simp [mapGet, hk]
    · simp only [mapGet, if_neg hk]
      exact ih hnd2.2 k
  | swap p q l =>
    intro hnd k
    obtain ⟨k1, v1⟩ := p
    obtain ⟨k2, v2⟩ := q
    have hnd2 := hnd
    simp only [mapKeys, List.map_cons, List.nodup_cons, List.mem_cons] at hnd2
    have hne : k2 ≠ k1 := fun he => hnd2.1 (Or.inl he)
    by_cases h1 : k1 = k
    · by_cases h2 : k2 = k
      · exact absurd (h2.trans h1.symm) hne
      · simp [mapGet, h1, h2]
    · by_cases h2 : k2 = k
      · simp [mapGet, h1, h2]
      · simp [mapGet, h1, h2]
  | trans h12 h23 ih12 ih23 =>
    intro hnd k
    rw [ih12 hnd k, ih23 ((h12.map Prod.fst).nodup_iff.mp hnd) k]

theorem sortedKeys_eq_of_perm (m₁ m₂ : DiffMap) (h : m₁.Perm m₂) :
    sortedKeys m₁ = sortedKeys m₂ := by
  haveI : IsTotal Str (fun a b => lexLe a b = true) := ⟨lexLe_total⟩
  haveI : IsTrans Str (fun a b => lexLe a b = true) := ⟨lexLe_trans⟩
  haveI : IsAntisymm Str (fun a b => lexLe a b = true) := ⟨lexLe_antisymm⟩
  have hp : (sortedKeys m₁).Perm (sortedKeys m₂) :=
    ((List.perm_insertionSort _ _).trans (h.map Prod.fst)).trans
      (List.perm_insertionSort _ _).symm
  have hs1 : List.Sorted (fun a b => lexLe a b = true) (sortedKeys m₁) :=
    List.sorted_insertionSort _ _
  have hs2 : List.Sorted (fun a b => lexLe a b = true) (sortedKeys m₂) :=
    List.sorted_insertionSort _ _
  exact List.eq_of_perm_of_sorted hp hs1 hs2

/-- C8: JSON rendering is a function of the entry mapping only — the
output has one element per path (its filenames are a permutation of the
keys), is sorted lexicographically ascending, renders the empty mapping
as the empty array, and is unchanged under reordering of the (unique-key)
mapping. -/
theorem c8_json_rendering (m₁ m₂ : DiffMap) :
    (create_json_output_data [] = []) ∧
    ((create_json_output_data m₁).map JsonFileEntry.filename).Perm (mapKeys m₁) ∧
    List.Pairwise (fun a b => lexLe a b = true)
      ((create_json_output_data m₁).map JsonFileEntry.filename) ∧
    ((mapKeys m₁).Nodup → m₁.Perm m₂ →
      create_json_output_data m₁ = create_json_output_data m₂) := by
  have hmapfn : ∀ m : DiffMap,
      (create_json_output_data m).map JsonFileEntry.filename = sortedKeys m := by
    intro m
    rw [create_json_output_data, List.map_map,
      show (JsonFileEntry.filename ∘ fun fpath =>
        ({ filename := fpath, ext := splitextExt fpath,
           all_diffs_as_text := (mapGet m fpath).diff,
           diff_blocks := split_diff_into_hunks (mapGet m fpath).diff } :
          JsonFileEntry)) = fun fpath => fpath from rfl]
    simp
  haveI : IsTotal Str (fun a b => lexLe a b = true) := ⟨lexLe_total⟩
  haveI : IsTrans Str (fun a b => lexLe a b = true) := ⟨lexLe_trans⟩
  refine ⟨rfl, ?_, ?_, ?_⟩
  · rw [hmapfn]
    exact List.perm_insertionSort _ _
  · rw [hmapfn]
    exact List.sorted_insertionSort _ _
  · intro hnd hperm
    have hkeys : sortedKeys m₁ = sortedKeys m₂ := sortedKeys_eq_of_perm m₁ m₂ hperm
    rw [create_json_output_data, create_json_output_data, hkeys]
    apply List.map_congr_left
    intro fpath _
    rw [mapGet_of_perm hperm hnd fpath]

/-- C8 witness: two insertion orders of the same entries render equally. -/
theorem c8_json_rendering_witness :
    create_json_output_data mapEx1 = create_json_output_data mapEx2 :=
  (c8_json_rendering mapEx1 mapEx2).2.2.2 (by decide) (by decide)

end GitDiff
